import Mathlib

/-!
Verification of the core of the `colx` column extractor.

The embedding translates `src/main.rs`:
* `ColumnRange` and `parse_column_range` (token parsing; Rust `isize`
  is modelled as unbounded `Int`, and the regex `^(-?\d+):(-?\d+)$`
  is modelled by splitting at the colon, which is equivalent because a
  capture group `-?\d+` can never contain a colon);
* `separate_args` (splitting argument tokens into ranges and filenames);
* `extract_columns` (field selection with negative-index resolution and
  silent skipping of out-of-bounds indices);
* `MultipleFileReader` with its `read` loop and `new_with_opener`
  construction; underlying byte sources are modelled as state machines
  `step : σ → Nat → ReadOutcome × σ` (state, buffer capacity ↦ response,
  successor state), which captures any `Box<dyn Read>`.
-/

namespace Colx

/-- Argument tokens and filenames are modelled as lists of characters. -/
abbrev Token := List Char

/-- Decimal value of a digit string, as accumulated left to right. -/
def digitsVal (cs : List Char) : Nat :=
  cs.foldl (fun acc c => acc * 10 + (c.toNat - 48)) 0

/-- Accepts exactly one-or-more decimal digits, returning their value. -/
def parseUnsigned (cs : List Char) : Option Nat :=
  if cs ≠ [] ∧ cs.all Char.isDigit then some (digitsVal cs) else none

/-- Model of Rust `str::parse::<isize>`: an optional sign followed by at
least one digit, consuming the whole token.  `isize` overflow is not
modelled (the integers are unbounded here). -/
def parseSigned (cs : List Char) : Option Int :=
  if cs.head? = some '-' then Option.map (fun n => -(Int.ofNat n)) (parseUnsigned cs.tail)
  else if cs.head? = some '+' then Option.map Int.ofNat (parseUnsigned cs.tail)
  else Option.map Int.ofNat (parseUnsigned cs)

/-- Model of one capture group `-?\d+` of the range regex: an optional
minus sign (no plus) followed by at least one digit. -/
def matchSignedDigits (cs : List Char) : Option Int :=
  if cs.head? = some '-' then Option.map (fun n => -(Int.ofNat n)) (parseUnsigned cs.tail)
  else Option.map Int.ofNat (parseUnsigned cs)

/-- Splits a token at its first colon, returning the parts before and
after; `none` when the token has no colon. -/
def splitAtColon : List Char → Option (List Char × List Char)
  | [] => none
  | c :: rest =>
    if c = ':' then some ([], rest)
    else Option.map (fun p => (c :: p.1, p.2)) (splitAtColon rest)

/-- A single column range, start-end inclusive, with start = end for
single column ranges (from `struct ColumnRange` in `src/main.rs`). -/
structure ColumnRange where
  start : Int
  «end» : Int
deriving DecidableEq, Repr

/-- The two capture groups of the range regex turned into a range: both
parts must match `-?\d+`. -/
def rangeFromParts (p : List Char × List Char) : Option ColumnRange :=
  match matchSignedDigits p.1, matchSignedDigits p.2 with
  | some x, some y => some ⟨x, y⟩
  | _, _ => none

/-- The regex arm of `parse_column_range`: the token matches
`^(-?\d+):(-?\d+)$` exactly when it splits at a colon into two parts
each matching `-?\d+`. -/
def parseRangePair (t : Token) : Option ColumnRange :=
  match splitAtColon t with
  | none => none
  | some p => rangeFromParts p

/-- Model of `parse_column_range`: first try to parse the whole token as
a single signed integer; otherwise try the range pattern
`^(-?\d+):(-?\d+)$`; otherwise the token is not a range. -/
def parse_column_range (maybe_column : Token) : Option ColumnRange :=
  match parseSigned maybe_column with
  | some single_column => some ⟨single_column, single_column⟩
  | none => parseRangePair maybe_column

/-- Model of `separate_args`: the longest leading run of tokens that
parse as column ranges becomes the range list, the rest are filenames
(Rust `map_while` followed by slicing off the parsed prefix). -/
def separate_args : List Token → List ColumnRange × List Token
  | [] => ([], [])
  | a :: rest =>
    match parse_column_range a with
    | some r => (r :: (separate_args rest).1, (separate_args rest).2)
    | none => ([], a :: rest)


/-- Model of Rust `(a..=b).collect::<Vec<isize>>()`: the ascending
inclusive enumeration from `a` to `b`, empty when `a > b`. -/
def intRangeAsc (a b : Int) : List Int :=
  (List.range (b - a + 1).toNat).map (fun (k : Nat) => a + (k : Int))

/-- The index enumeration of `extract_columns` for one range: ascending
`start..=end` when `start < end`, otherwise `(end..=start).rev()`
(from lines 176-180 of `src/main.rs`). -/
def rangeIndices (r : ColumnRange) : List Int :=
  if r.start < r.«end» then intRangeAsc r.start r.«end»
  else (intRangeAsc r.«end» r.start).reverse

/-- The inner loop body of `extract_columns` over an index list: resolve
a negative index by adding the field count, skip indices that are still
negative or not below the field count, and otherwise emit the field at
the resolved position. -/
def pushColumns (columns : List String) : List Int → List String
  | [] => []
  | i :: rest =>
    let j : Int := if i < 0 then i + (columns.length : Int) else i
    if j < 0 then pushColumns columns rest
    else if h : columns.length ≤ j.toNat then pushColumns columns rest
    else columns.get ⟨j.toNat, Nat.lt_of_not_le h⟩ :: pushColumns columns rest

/-- Model of `extract_columns`: each range contributes its resolved
fields, in range order, to one result list. -/
def extract_columns (column_ranges : List ColumnRange) (columns : List String) : List String :=
  match column_ranges with
  | [] => []
  | r :: rest => pushColumns columns (rangeIndices r) ++ extract_columns rest columns

/-- The six-field example line used throughout the specification. -/
def sixFields : List String := ["zero", "one", "two", "three", "four", "five"]


/-- The response of one `read` call on an underlying source: either the
bytes read (`Ok(n)` plus the bytes put into the buffer) or an I/O error
(identified by a code). -/
inductive ReadOutcome where
  | ok (data : List Nat)
  | err (code : Nat)
deriving DecidableEq, Repr

/-- Model of `struct MultipleFileReader`: the ordered list of not yet
exhausted sources, the head being the current one. -/
structure MultipleFileReader (σ : Type) where
  filehandles : List σ
deriving DecidableEq, Repr

/-- The `while !self.filehandles.is_empty()` loop of
`MultipleFileReader::read`, over the source list: read from the head
source; propagate an error (keeping the head); return data when there is
some; otherwise drop the exhausted head and retry with the next source;
an empty list reads zero bytes.  `step` gives each source's behaviour:
from a source state and the buffer capacity, the response and the
successor state. -/
def readLoop {σ : Type} (step : σ → Nat → ReadOutcome × σ) :
    List σ → Nat → Except Nat (List Nat) × List σ
  | [], _ => (Except.ok [], [])
  | f :: rest, n =>
    match step f n with
    | (ReadOutcome.err e, g) => (Except.error e, g :: rest)
    | (ReadOutcome.ok data, g) =>
      if data.length > 0 then (Except.ok data, g :: rest)
      else readLoop step rest n

/-- Model of `MultipleFileReader::read`: one read call, returning the
result and the reader afterwards. -/
def MultipleFileReader.read {σ : Type} (step : σ → Nat → ReadOutcome × σ)
    (r : MultipleFileReader σ) (n : Nat) :
    Except Nat (List Nat) × MultipleFileReader σ :=
  ((readLoop step r.filehandles n).1, ⟨(readLoop step r.filehandles n).2⟩)

/-- `m` successive `read` calls on the reader, each with buffer capacity
`n`, collecting the results in order. -/
def MultipleFileReader.readN {σ : Type} (step : σ → Nat → ReadOutcome × σ)
    (r : MultipleFileReader σ) (n : Nat) : Nat → List (Except Nat (List Nat))
  | 0 => []
  | Nat.succ m =>
    (MultipleFileReader.read step r n).1 ::
      MultipleFileReader.readN step (MultipleFileReader.read step r n).2 n m

/-- The filename that denotes standard input. -/
def stdinToken : Token := ['-']

/-- The opening loop of `MultipleFileReader::new_with_opener`: for each
filename in order, `"-"` yields the standard input handle (which never
fails), any other name is opened through `openFile` and the first open
error aborts the whole construction. -/
def openHandles {ε η : Type} (openFile : Token → Except ε η) (stdinHandle : η) :
    List Token → Except ε (List η)
  | [] => Except.ok []
  | f :: rest =>
    if f = stdinToken then
      Except.map (fun hs => stdinHandle :: hs) (openHandles openFile stdinHandle rest)
    else
      match openFile f with
      | Except.error e => Except.error e
      | Except.ok h => Except.map (fun hs => h :: hs) (openHandles openFile stdinHandle rest)

/-- Model of `MultipleFileReader::new_with_opener`: an empty filename
list is replaced by the single filename `"-"`, then every file is opened
eagerly and the handles form the reader's source list. -/
def new_with_opener {ε η : Type} (openFile : Token → Except ε η) (stdinHandle : η)
    (filenames : List Token) : Except ε (MultipleFileReader η) :=
  if filenames.isEmpty then
    Except.map MultipleFileReader.mk (openHandles openFile stdinHandle [stdinToken])
  else
    Except.map MultipleFileReader.mk (openHandles openFile stdinHandle filenames)

/-- Spec-side counterpart of the inner loop, following the
specification's words for one enumerated index: a negative index is
resolved by adding the field count; an index that is still negative or
`>= fields.length` emits nothing (no error, no placeholder); otherwise
the field at the resolved index is emitted.  Stated separately from
`pushColumns` so that the refinement between the two can be proved. -/
def emitAtSpec (fields : List String) (i : Int) : List String :=
  let resolved : Int := if i < 0 then i + (fields.length : Int) else i
  if h : 0 ≤ resolved ∧ resolved < (fields.length : Int) then
    [fields.get ⟨resolved.toNat, by omega⟩]
  else []

theorem pushColumns_eq_flatMap (columns : List String) (l : List Int) :
    pushColumns columns l = l.flatMap (emitAtSpec columns) := by
  induction l with
  | nil => rfl
  | cons i rest ih =>
    rw [List.flatMap_cons, ← ih]
    show (let j : Int := if i < 0 then i + (columns.length : Int) else i
          if j < 0 then pushColumns columns rest
          else if h : columns.length ≤ j.toNat then pushColumns columns rest
          else columns.get ⟨j.toNat, Nat.lt_of_not_le h⟩ :: pushColumns columns rest) =
        emitAtSpec columns i ++ pushColumns columns rest
    unfold emitAtSpec
    by_cases hi : i < 0 <;> simp only [hi, if_true, if_false, ite_true, ite_false]
    · by_cases h1 : i + (columns.length : Int) < 0
      · simp only [if_pos h1, dif_neg (show ¬(0 ≤ i + (columns.length : Int) ∧
          i + (columns.length : Int) < (columns.length : Int)) by omega)]
        rfl
      · by_cases h2 : columns.length ≤ (i + (columns.length : Int)).toNat
        · simp only [if_neg h1, dif_pos h2, dif_neg (show ¬(0 ≤ i + (columns.length : Int) ∧
            i + (columns.length : Int) < (columns.length : Int)) by omega)]
          rfl
        · simp only [if_neg h1, dif_neg h2, dif_pos (show (0 ≤ i + (columns.length : Int) ∧
            i + (columns.length : Int) < (columns.length : Int)) by omega)]
          rfl
    · by_cases h1 : (i : Int) < 0
      · exact absurd h1 hi
      · by_cases h2 : columns.length ≤ i.toNat
        · simp only [if_neg h1, dif_pos h2,
            dif_neg (show ¬(0 ≤ i ∧ i < (columns.length : Int)) by omega)]
          rfl
        · simp only [if_neg h1, dif_neg h2,
            dif_pos (show (0 ≤ i ∧ i < (columns.length : Int)) by omega)]
          rfl

theorem mem_intRangeAsc {a b i : Int} : i ∈ intRangeAsc a b ↔ a ≤ i ∧ i ≤ b := by
  simp only [intRangeAsc, List.mem_map, List.mem_range]
  constructor
  · rintro ⟨k, hk, rfl⟩
    omega
  · rintro ⟨h1, h2⟩
    exact ⟨(i - a).toNat, by omega, by omega⟩

theorem pairwise_lt_intRangeAsc (a b : Int) :
    List.Pairwise (· < ·) (intRangeAsc a b) := by
  unfold intRangeAsc
  rw [List.pairwise_map]
  exact (List.pairwise_lt_range _).imp (by omega)

theorem intRangeAsc_self (a : Int) : intRangeAsc a a = [a] := by
  unfold intRangeAsc
  rw [show a - a + 1 = 1 by ring]
  rw [show List.range ((1 : Int).toNat) = [0] from rfl, List.map_cons, List.map_nil]
  norm_num

/-- Claim C1: for every range and field list, `extract_columns`
enumerates each index of the range in order, resolving a negative index
by adding the field count, silently skipping a resolved index that is
still negative or not less than the field count, and otherwise emitting
the field at the resolved index; on the six example fields, range
`{-2,3}` yields `["four","five","zero","one","two","three"]`, range
`{7,7}` yields `[]`, and range `{2,6}` yields
`["two","three","four","five"]`. -/
theorem extract_columns_c1 :
    (∀ (r : ColumnRange) (fields : List String),
      extract_columns [r] fields = (rangeIndices r).flatMap (emitAtSpec fields)) ∧
    extract_columns [⟨-2, 3⟩] sixFields = ["four", "five", "zero", "one", "two", "three"] ∧
    extract_columns [⟨7, 7⟩] sixFields = [] ∧
    extract_columns [⟨2, 6⟩] sixFields = ["two", "three", "four", "five"] := by
  refine ⟨fun r fields => ?_, by decide, by decide, by decide⟩
  show pushColumns fields (rangeIndices r) ++ extract_columns [] fields = _
  rw [show extract_columns [] fields = [] from rfl, List.append_nil,
    pushColumns_eq_flatMap]

/-- Claim C2: `extract_columns` enumerates the inclusive indices between
`start` and `end` ascending when `start ≤ end` and descending from
`start` down to `end` when `start > end` (the enumeration contains
exactly the integers between the bounds, strictly increasing in the
ascending case and strictly decreasing in the descending case, and a
reversed range enumerates the reverse of the forward one); range `{4,2}`
on the six example fields yields `["four","three","two"]`. -/
theorem rangeIndices_c2 :
    (∀ a b : Int, a ≤ b → ∀ i : Int,
      (i ∈ rangeIndices ⟨a, b⟩ ↔ a ≤ i ∧ i ≤ b)) ∧
    (∀ a b : Int, a ≤ b → List.Pairwise (· < ·) (rangeIndices ⟨a, b⟩)) ∧
    (∀ a b : Int, b < a → rangeIndices ⟨a, b⟩ = (rangeIndices ⟨b, a⟩).reverse) ∧
    (∀ a b : Int, b < a → List.Pairwise (· > ·) (rangeIndices ⟨a, b⟩)) ∧
    (∀ a b : Int, b < a → ∀ i : Int,
      (i ∈ rangeIndices ⟨a, b⟩ ↔ b ≤ i ∧ i ≤ a)) ∧
    extract_columns [⟨4, 2⟩] sixFields = ["four", "three", "two"] := by
  refine ⟨fun a b hab i => ?_, fun a b hab => ?_, fun a b hba => ?_,
    fun a b hba => ?_, fun a b hba i => ?_, by decide⟩
  · unfold rangeIndices
    dsimp only
    by_cases h : a < b
    · rw [if_pos h]
      exact mem_intRangeAsc
    · rw [if_neg h]
      simp only [List.mem_reverse]
      rw [mem_intRangeAsc]
      omega
  · unfold rangeIndices
    dsimp only
    by_cases h : a < b
    · rw [if_pos h]
      exact pairwise_lt_intRangeAsc a b
    · rw [if_neg h]
      have hab2 : a = b := le_antisymm hab (by omega)
      subst hab2
      rw [intRangeAsc_self]
      exact List.pairwise_reverse.mpr (by simp)
  · unfold rangeIndices
    dsimp only
    rw [if_neg (by omega), if_pos hba]
  · unfold rangeIndices
    dsimp only
    rw [if_neg (by omega)]
    rw [List.pairwise_reverse]
    exact pairwise_lt_intRangeAsc b a
  · unfold rangeIndices
    dsimp only
    rw [if_neg (by omega)]
    simp only [List.mem_reverse]
    exact mem_intRangeAsc

theorem rangeIndices_c2_witness :
    ((3 : Int) ∈ rangeIndices ⟨2, 4⟩ ↔ (2 : Int) ≤ 3 ∧ (3 : Int) ≤ 4) ∧
    List.Pairwise (· < ·) (rangeIndices ⟨2, 4⟩) ∧
    rangeIndices ⟨4, 2⟩ = (rangeIndices ⟨2, 4⟩).reverse ∧
    List.Pairwise (· > ·) (rangeIndices ⟨4, 2⟩) ∧
    ((3 : Int) ∈ rangeIndices ⟨4, 2⟩ ↔ (2 : Int) ≤ 3 ∧ (3 : Int) ≤ 4) :=
  ⟨rangeIndices_c2.1 2 4 (by decide) 3,
   rangeIndices_c2.2.1 2 4 (by decide),
   rangeIndices_c2.2.2.1 4 2 (by decide),
   rangeIndices_c2.2.2.2.1 4 2 (by decide),
   rangeIndices_c2.2.2.2.2.1 4 2 (by decide) 3⟩

/-- Claim C8: the result of `extract_columns` is the concatenation, in
the order the ranges were supplied, of each range's resolved field
sequence — `extract_columns` is a list homomorphism in its range list —
so overlapping or repeated ranges duplicate fields, as on the example
ranges `[{2,4},{1,5}]`. -/
theorem extract_columns_c8 :
    (∀ (rs1 rs2 : List ColumnRange) (fields : List String),
      extract_columns (rs1 ++ rs2) fields =
        extract_columns rs1 fields ++ extract_columns rs2 fields) ∧
    extract_columns [⟨2, 4⟩, ⟨1, 5⟩] sixFields =
      ["two", "three", "four", "one", "two", "three", "four", "five"] := by
  refine ⟨fun rs1 rs2 fields => ?_, by decide⟩
  induction rs1 with
  | nil => rfl
  | cons r rest ih =>
    rw [show extract_columns ((r :: rest) ++ rs2) fields =
          pushColumns fields (rangeIndices r) ++ extract_columns (rest ++ rs2) fields from rfl,
      ih,
      show extract_columns (r :: rest) fields =
          pushColumns fields (rangeIndices r) ++ extract_columns rest fields from rfl,
      List.append_assoc]

theorem parseUnsigned_eq_none_of_colon {cs : List Char} (h : ':' ∈ cs) :
    parseUnsigned cs = none := by
  unfold parseUnsigned
  rw [if_neg]
  rintro ⟨-, h2⟩
  exact absurd (List.all_eq_true.mp h2 _ h) (by decide)

theorem parseSigned_eq_none_of_colon {cs : List Char} (h : ':' ∈ cs) :
    parseSigned cs = none := by
  cases cs with
  | nil => cases h
  | cons c rest =>
    have hcr : ':' = c ∨ ':' ∈ rest := List.mem_cons.mp h
    unfold parseSigned
    simp only [List.head?_cons, List.tail_cons, Option.some.injEq]
    by_cases h1 : c = '-'
    · rw [if_pos h1]
      have hr : ':' ∈ rest := by
        rcases hcr with hc | hr
        · subst h1
          exact absurd hc (by decide)
        · exact hr
      rw [parseUnsigned_eq_none_of_colon hr]
      rfl
    · rw [if_neg h1]
      by_cases h2 : c = '+'
      · rw [if_pos h2]
        have hr : ':' ∈ rest := by
          rcases hcr with hc | hr
          · subst h2
            exact absurd hc (by decide)
          · exact hr
        rw [parseUnsigned_eq_none_of_colon hr]
        rfl
      · rw [if_neg h2, parseUnsigned_eq_none_of_colon h]
        rfl

theorem not_colon_mem_of_matchSignedDigits {a : List Char} {x : Int}
    (h : matchSignedDigits a = some x) : ':' ∉ a := by
  intro hmem
  unfold matchSignedDigits at h
  cases a with
  | nil => cases hmem
  | cons c rest =>
    simp only [List.head?_cons, List.tail_cons, Option.some.injEq] at h
    by_cases h1 : c = '-'
    · rw [if_pos h1] at h
      have hr : ':' ∈ rest := by
        rcases List.mem_cons.mp hmem with hc | hr
        · subst h1
          exact absurd hc (by decide)
        · exact hr
      rw [parseUnsigned_eq_none_of_colon hr] at h
      cases h
    · rw [if_neg h1, parseUnsigned_eq_none_of_colon hmem] at h
      cases h

theorem splitAtColon_append {a : List Char} (b : List Char) (ha : ':' ∉ a) :
    splitAtColon (a ++ ':' :: b) = some (a, b) := by
  induction a with
  | nil =>
    show splitAtColon (':' :: b) = some ([], b)
    unfold splitAtColon
    rw [if_pos rfl]
  | cons c rest ih =>
    have hc : ¬(c = ':') := fun h => ha (by subst h; exact List.mem_cons_self _ _)
    show splitAtColon (c :: (rest ++ ':' :: b)) = some (c :: rest, b)
    unfold splitAtColon
    rw [if_neg hc, ih (fun h => ha (List.mem_cons_of_mem c h))]
    rfl

theorem splitAtColon_eq {t a b : List Char}
    (h : splitAtColon t = some (a, b)) : t = a ++ ':' :: b ∧ ':' ∉ a := by
  induction t generalizing a b with
  | nil => cases h
  | cons c rest ih =>
    unfold splitAtColon at h
    by_cases hc : c = ':'
    · rw [if_pos hc] at h
      cases h
      subst hc
      exact ⟨rfl, by simp⟩
    · rw [if_neg hc] at h
      cases hsp : splitAtColon rest with
      | none =>
        rw [hsp] at h
        cases h
      | some p =>
        rw [hsp] at h
        cases h
        obtain ⟨h1, h2⟩ := ih hsp
        constructor
        · show c :: rest = (c :: p.1) ++ ':' :: p.2
          rw [List.cons_append, ← h1]
        · intro hmem
          rcases List.mem_cons.mp hmem with h3 | h3
          · exact hc h3.symm
          · exact h2 h3

theorem parse_column_range_of_single {t : Token} {n : Int} (h : parseSigned t = some n) :
    parse_column_range t = some ⟨n, n⟩ := by
  unfold parse_column_range
  rw [h]

theorem parse_column_range_of_nosingle {t : Token} (h : parseSigned t = none) :
    parse_column_range t = parseRangePair t := by
  unfold parse_column_range
  rw [h]

theorem parseRangePair_of_split {t : Token} {p : List Char × List Char}
    (h : splitAtColon t = some p) : parseRangePair t = rangeFromParts p := by
  unfold parseRangePair
  rw [h]

theorem parseRangePair_of_nosplit {t : Token} (h : splitAtColon t = none) :
    parseRangePair t = none := by
  unfold parseRangePair
  rw [h]

theorem rangeFromParts_eq {p : List Char × List Char} {x y : Int}
    (hx : matchSignedDigits p.1 = some x) (hy : matchSignedDigits p.2 = some y) :
    rangeFromParts p = some ⟨x, y⟩ := by
  unfold rangeFromParts
  rw [hx, hy]

theorem rangeFromParts_inv {p : List Char × List Char} {r : ColumnRange}
    (h : rangeFromParts p = some r) :
    matchSignedDigits p.1 = some r.start ∧ matchSignedDigits p.2 = some r.«end» := by
  unfold rangeFromParts at h
  cases hx : matchSignedDigits p.1 with
  | none =>
    cases hy : matchSignedDigits p.2 with
    | none => rw [hx, hy] at h; cases h
    | some y => rw [hx, hy] at h; cases h
  | some x =>
    cases hy : matchSignedDigits p.2 with
    | none => rw [hx, hy] at h; cases h
    | some y =>
      rw [hx, hy] at h
      cases h
      exact ⟨rfl, rfl⟩

/-- Claim C5: `parse_column_range` yields `ColumnRange{a, b}` exactly
when the token matches `<signed-int>:<signed-int>` (both parts required,
no other characters), for any signed integers on either side; malformed
variants such as `"1:"`, `":2"`, `"1:2-"` and non-numeric tokens are
"not a range" (`none`), not an error. -/
theorem parse_column_range_c5 :
    (∀ (a b : List Char) (x y : Int), matchSignedDigits a = some x →
      matchSignedDigits b = some y →
      parse_column_range (a ++ ':' :: b) = some ⟨x, y⟩) ∧
    (∀ (t : Token) (r : ColumnRange), parse_column_range t = some r → ':' ∈ t →
      ∃ a b, t = a ++ ':' :: b ∧ matchSignedDigits a = some r.start ∧
        matchSignedDigits b = some r.«end») ∧
    parse_column_range "1:".toList = none ∧
    parse_column_range ":2".toList = none ∧
    parse_column_range "1:2-".toList = none ∧
    parse_column_range "a".toList = none ∧
    parse_column_range "1:a".toList = none := by
  refine ⟨fun a b x y hx hy => ?_, fun t r hp hc => ?_,
    by decide, by decide, by decide, by decide, by decide⟩
  · have hcolon : ':' ∈ a ++ ':' :: b := List.mem_append_right a (List.mem_cons_self _ _)
    rw [parse_column_range_of_nosingle (parseSigned_eq_none_of_colon hcolon),
      parseRangePair_of_split (splitAtColon_append b (not_colon_mem_of_matchSignedDigits hx))]
    exact rangeFromParts_eq hx hy
  · rw [parse_column_range_of_nosingle (parseSigned_eq_none_of_colon hc)] at hp
    cases hsp : splitAtColon t with
    | none =>
      rw [parseRangePair_of_nosplit hsp] at hp
      cases hp
    | some p =>
      rw [parseRangePair_of_split hsp] at hp
      obtain ⟨hx, hy⟩ := rangeFromParts_inv hp
      exact ⟨p.1, p.2, (splitAtColon_eq hsp).1, hx, hy⟩

theorem parse_column_range_c5_witness :
    parse_column_range (['4'] ++ ':' :: ['-', '2']) = some ⟨4, -2⟩ :=
  parse_column_range_c5.1 ['4'] ['-', '2'] 4 (-2) (by decide) (by decide)

/-- Claim C6: every token that parses as a single signed integer `n`
(including negative `n`) yields `ColumnRange{start: n, end: n}`. -/
theorem parse_column_range_c6 :
    (∀ (t : Token) (n : Int), parseSigned t = some n →
      parse_column_range t = some ⟨n, n⟩) ∧
    parse_column_range "-2".toList = some ⟨-2, -2⟩ ∧
    parse_column_range "1".toList = some ⟨1, 1⟩ := by
  refine ⟨fun t n h => ?_, by decide, by decide⟩
  unfold parse_column_range
  rw [h]

theorem parse_column_range_c6_witness :
    parse_column_range "-7".toList = some ⟨-7, -7⟩ :=
  parse_column_range_c6.1 "-7".toList (-7) (by decide)

/-- Claim C7: `separate_args` returns as ranges exactly the parses of
the longest leading run of tokens that parse as ranges, in order, and as
filenames exactly the remaining tokens unmodified and in order (it stops
at the first non-range token even when a later token would parse as a
range); the empty token list yields empty ranges and empty filenames. -/
theorem separate_args_c7 :
    (∀ args : List Token, separate_args args =
      ((args.takeWhile (fun a => (parse_column_range a).isSome)).filterMap parse_column_range,
       args.dropWhile (fun a => (parse_column_range a).isSome))) ∧
    separate_args [] = ([], []) ∧
    separate_args ["4:-2".toList, "foo".toList, "bar".toList, "1".toList, "baz".toList] =
      ([⟨4, -2⟩], ["foo".toList, "bar".toList, "1".toList, "baz".toList]) := by
  refine ⟨fun args => ?_, rfl, by decide⟩
  induction args with
  | nil => rfl
  | cons a rest ih =>
    cases hpa : parse_column_range a with
    | none =>
      simp [separate_args, hpa, List.takeWhile_cons, List.dropWhile_cons]
    | some r =>
      simp [separate_args, hpa, List.takeWhile_cons, List.dropWhile_cons, ih]

theorem read_eq {σ : Type} (step : σ → Nat → ReadOutcome × σ) (l : List σ) (n : Nat) :
    MultipleFileReader.read step ⟨l⟩ n =
      ((readLoop step l n).1, ⟨(readLoop step l n).2⟩) := rfl

theorem readLoop_err {σ : Type} {step : σ → Nat → ReadOutcome × σ} {f : σ} {n e : Nat} {g : σ}
    (h : step f n = (ReadOutcome.err e, g)) (rest : List σ) :
    readLoop step (f :: rest) n = (Except.error e, g :: rest) := by
  unfold readLoop
  rw [h]

theorem readLoop_data {σ : Type} {step : σ → Nat → ReadOutcome × σ} {f : σ} {n : Nat}
    {data : List Nat} {g : σ} (h : step f n = (ReadOutcome.ok data, g)) (hd : data ≠ [])
    (rest : List σ) :
    readLoop step (f :: rest) n = (Except.ok data, g :: rest) := by
  unfold readLoop
  rw [h]
  show (if data.length > 0 then ((Except.ok data : Except Nat (List Nat)), g :: rest)
      else readLoop step rest n) = (Except.ok data, g :: rest)
  rw [if_pos (List.length_pos.mpr hd)]

theorem readLoop_skip {σ : Type} {step : σ → Nat → ReadOutcome × σ} {f : σ} {n : Nat} {g : σ}
    (h : step f n = (ReadOutcome.ok [], g)) (rest : List σ) :
    readLoop step (f :: rest) n = readLoop step rest n := by
  have h2 : readLoop step (f :: rest) n =
      match step f n with
      | (ReadOutcome.err e, g) => (Except.error e, g :: rest)
      | (ReadOutcome.ok data, g) =>
        if data.length > 0 then (Except.ok data, g :: rest) else readLoop step rest n := rfl
  rw [h2, h]
  show (if ([] : List Nat).length > 0 then ((Except.ok ([] : List Nat) : Except Nat (List Nat)),
      g :: rest) else readLoop step rest n) = readLoop step rest n
  rw [if_neg (by simp)]

/-- Claim C3: a single `read` call returns bytes coming from only one
underlying source; a head source returning zero bytes is removed from
the reader's list and the read is retried against the next source; when
the list is exhausted, `read` returns zero bytes (success, not an
error). -/
theorem multipleFileReader_read_c3 {σ : Type} (step : σ → Nat → ReadOutcome × σ) :
    (∀ n : Nat, MultipleFileReader.read step ⟨[]⟩ n = (Except.ok [], ⟨[]⟩)) ∧
    (∀ (f : σ) (rest : List σ) (n : Nat) (data : List Nat) (g : σ),
      step f n = (ReadOutcome.ok data, g) → data ≠ [] →
      MultipleFileReader.read step ⟨f :: rest⟩ n = (Except.ok data, ⟨g :: rest⟩)) ∧
    (∀ (f : σ) (rest : List σ) (n : Nat) (g : σ),
      step f n = (ReadOutcome.ok [], g) →
      MultipleFileReader.read step ⟨f :: rest⟩ n = MultipleFileReader.read step ⟨rest⟩ n) := by
  refine ⟨fun n => rfl, fun f rest n data g hstep hd => ?_, fun f rest n g hstep => ?_⟩
  · rw [read_eq, readLoop_data hstep hd]
  · rw [read_eq step (f :: rest) n, read_eq step rest n, readLoop_skip hstep]

theorem multipleFileReader_read_c3_witness :
    MultipleFileReader.read
      (fun (s : Nat) (_ : Nat) =>
        (if s = 0 then ReadOutcome.ok [] else ReadOutcome.ok [9], s + 1))
      ⟨[0, 1]⟩ 5 = (Except.ok [9], ⟨[2]⟩) := by
  have h := multipleFileReader_read_c3
    (fun (s : Nat) (_ : Nat) =>
      (if s = 0 then ReadOutcome.ok [] else ReadOutcome.ok [9], s + 1))
  rw [h.2.2 0 [1] 5 1 (by decide)]
  exact h.2.1 1 [] 5 [9] 2 (by decide) (by decide)

/-- Claim C4: if the head source's read returns an error, the reader's
`read` returns that error without removing the head source and without
advancing to the next source; for a head source whose every read errs,
every subsequent read call on the reader errs again. -/
theorem multipleFileReader_read_c4 {σ : Type} (step : σ → Nat → ReadOutcome × σ) :
    (∀ (f : σ) (rest : List σ) (n e : Nat) (g : σ),
      step f n = (ReadOutcome.err e, g) →
      MultipleFileReader.read step ⟨f :: rest⟩ n = (Except.error e, ⟨g :: rest⟩)) ∧
    (∀ (P : σ → Prop),
      (∀ f, P f → ∀ n, ∃ e g, step f n = (ReadOutcome.err e, g) ∧ P g) →
      ∀ (f : σ) (rest : List σ) (n m : Nat), P f →
        ∀ res ∈ MultipleFileReader.readN step ⟨f :: rest⟩ n m,
          ∃ e, res = Except.error e) := by
  refine ⟨fun f rest n e g hstep => by rw [read_eq, readLoop_err hstep],
    fun P hP f rest n m => ?_⟩
  induction m generalizing f with
  | zero =>
    intro hPf res hres
    cases hres
  | succ m ih =>
    intro hPf res hres
    obtain ⟨e, g, hstep, hPg⟩ := hP f hPf n
    have hread : MultipleFileReader.read step ⟨f :: rest⟩ n = (Except.error e, ⟨g :: rest⟩) := by
      rw [read_eq, readLoop_err hstep]
    rw [show MultipleFileReader.readN step ⟨f :: rest⟩ n (Nat.succ m) =
        (MultipleFileReader.read step ⟨f :: rest⟩ n).1 ::
          MultipleFileReader.readN step (MultipleFileReader.read step ⟨f :: rest⟩ n).2 n m
        from rfl, hread] at hres
    rcases List.mem_cons.mp hres with h1 | h1
    · exact ⟨e, h1⟩
    · exact ih g hPg res h1

theorem multipleFileReader_read_c4_witness :
    MultipleFileReader.read (fun (s : Nat) (_ : Nat) => (ReadOutcome.err 7, s)) ⟨[0, 5]⟩ 4 =
      (Except.error 7, ⟨[0, 5]⟩) ∧
    (∃ e, (Except.error 7 : Except Nat (List Nat)) = Except.error e) := by
  constructor
  · exact (multipleFileReader_read_c4 (fun (s : Nat) (_ : Nat) => (ReadOutcome.err 7, s))).1
      0 [5] 4 7 0 rfl
  · exact (multipleFileReader_read_c4 (fun (s : Nat) (_ : Nat) => (ReadOutcome.err 7, s))).2
      (fun _ => True) (fun f _ n => ⟨7, f, rfl, trivial⟩) 0 [5] 4 2 trivial
      (Except.error 7) (List.mem_cons_self _ _)

/-- Claim C10: whenever the head source's read returns zero bytes the
reader discards that source regardless of the reason; in particular a
read with a zero-length buffer, to which every underlying source replies
with zero bytes, discards every remaining source one by one and returns
zero bytes. -/
theorem multipleFileReader_read_c10 {σ : Type} (step : σ → Nat → ReadOutcome × σ)
    (h0 : ∀ g, (step g 0).1 = ReadOutcome.ok []) :
    ∀ fhs : List σ, MultipleFileReader.read step ⟨fhs⟩ 0 = (Except.ok [], ⟨[]⟩) := by
  intro fhs
  induction fhs with
  | nil => rfl
  | cons f rest ih =>
    have hstep : step f 0 = (ReadOutcome.ok [], (step f 0).2) := Prod.ext (h0 f) rfl
    rw [read_eq, readLoop_skip hstep]
    exact ih

theorem multipleFileReader_read_c10_witness :
    MultipleFileReader.read (fun (s : Nat) (_ : Nat) => (ReadOutcome.ok [], s)) ⟨[1, 2, 3]⟩ 0 =
      (Except.ok [], ⟨[]⟩) :=
  multipleFileReader_read_c10 (fun (s : Nat) (_ : Nat) => (ReadOutcome.ok [], s))
    (fun _ => rfl) [1, 2, 3]

theorem openHandles_ok {ε η : Type} (openFile : Token → Except ε η) (stdinHandle : η) :
    ∀ filenames : List Token,
      (∀ f ∈ filenames, f ≠ stdinToken → ∃ h, openFile f = Except.ok h) →
      ∃ hs, openHandles openFile stdinHandle filenames = Except.ok hs ∧
        List.Forall₂ (fun f h => (f = stdinToken ∧ h = stdinHandle) ∨ openFile f = Except.ok h)
          filenames hs := by
  intro filenames
  induction filenames with
  | nil => exact fun _ => ⟨[], rfl, List.Forall₂.nil⟩
  | cons f rest ih =>
    intro hall
    obtain ⟨hs, hhs, hrel⟩ := ih (fun g hg hne => hall g (List.mem_cons_of_mem f hg) hne)
    by_cases hf : f = stdinToken
    · refine ⟨stdinHandle :: hs, ?_, List.Forall₂.cons (Or.inl ⟨hf, rfl⟩) hrel⟩
      unfold openHandles
      rw [if_pos hf, hhs]
      rfl
    · obtain ⟨h, hh⟩ := hall f (List.mem_cons_self f rest) hf
      refine ⟨h :: hs, ?_, List.Forall₂.cons (Or.inr hh) hrel⟩
      unfold openHandles
      rw [if_neg hf, hh, hhs]
      rfl

theorem openHandles_err {ε η : Type} (openFile : Token → Except ε η) (stdinHandle : η)
    {f : Token} {e : ε} (hf : f ≠ stdinToken) (hfe : openFile f = Except.error e) :
    ∀ pre : List Token,
      (∀ g ∈ pre, g ≠ stdinToken → ∃ h, openFile g = Except.ok h) →
      ∀ post : List Token,
        openHandles openFile stdinHandle (pre ++ f :: post) = Except.error e := by
  intro pre
  induction pre with
  | nil =>
    intro _ post
    show openHandles openFile stdinHandle (f :: post) = Except.error e
    unfold openHandles
    rw [if_neg hf, hfe]
  | cons g pre2 ih =>
    intro hall post
    show openHandles openFile stdinHandle (g :: (pre2 ++ f :: post)) = Except.error e
    unfold openHandles
    by_cases hg : g = stdinToken
    · rw [if_pos hg, ih (fun x hx => hall x (List.mem_cons_of_mem g hx)) post]
      rfl
    · obtain ⟨h, hh⟩ := hall g (List.mem_cons_self g pre2) hg
      rw [if_neg hg, hh, ih (fun x hx => hall x (List.mem_cons_of_mem g hx)) post]
      rfl

/-- Claim C9: reader construction opens every named file eagerly,
failing with the underlying open error as soon as any file fails to open
and returning no partial reader; `"-"` (standard input) never fails to
open; an empty descriptor list is replaced by a single implicit
standard-input source. -/
theorem new_with_opener_c9 {ε η : Type} (openFile : Token → Except ε η) (stdinHandle : η) :
    (new_with_opener openFile stdinHandle [] = Except.ok ⟨[stdinHandle]⟩) ∧
    (∀ filenames : List Token, filenames ≠ [] →
      (∀ f ∈ filenames, f ≠ stdinToken → ∃ h, openFile f = Except.ok h) →
      ∃ hs, new_with_opener openFile stdinHandle filenames = Except.ok ⟨hs⟩ ∧
        List.Forall₂ (fun f h => (f = stdinToken ∧ h = stdinHandle) ∨ openFile f = Except.ok h)
          filenames hs) ∧
    (∀ (pre : List Token) (f : Token) (post : List Token) (e : ε), f ≠ stdinToken →
      (∀ g ∈ pre, g ≠ stdinToken → ∃ h, openFile g = Except.ok h) →
      openFile f = Except.error e →
      new_with_opener openFile stdinHandle (pre ++ f :: post) = Except.error e) := by
  refine ⟨rfl, fun filenames hne hall => ?_, fun pre f post e hf hall hfe => ?_⟩
  · obtain ⟨hs, hhs, hrel⟩ := openHandles_ok openFile stdinHandle filenames hall
    refine ⟨hs, ?_, hrel⟩
    unfold new_with_opener
    rw [if_neg (by simp [hne]), hhs]
    rfl
  · unfold new_with_opener
    rw [if_neg (by simp), openHandles_err openFile stdinHandle hf hfe pre hall post]
    rfl

theorem new_with_opener_c9_witness :
    (new_with_opener
        (fun t => if t = ['a'] then (Except.ok 1 : Except Nat Nat) else Except.error 9)
        0 [] = Except.ok ⟨[0]⟩) ∧
    (new_with_opener
        (fun t => if t = ['a'] then (Except.ok 1 : Except Nat Nat) else Except.error 9)
        0 [['a'], ['-']] = Except.ok ⟨[1, 0]⟩) ∧
    (new_with_opener
        (fun t => if t = ['a'] then (Except.ok 1 : Except Nat Nat) else Except.error 9)
        0 [['a'], ['b'], ['a']] = Except.error 9) := by
  have hc9 := new_with_opener_c9
    (fun t => if t = ['a'] then (Except.ok 1 : Except Nat Nat) else Except.error 9) 0
  have hall1 : ∀ f ∈ [['a'], ['-']], f ≠ stdinToken →
      ∃ h, (if f = ['a'] then (Except.ok 1 : Except Nat Nat) else Except.error 9) =
        Except.ok h := by
    intro f hf hne
    rcases List.mem_cons.mp hf with rfl | hf2
    · exact ⟨1, rfl⟩
    · rcases List.mem_cons.mp hf2 with rfl | hf3
      · exact absurd rfl hne
      · cases hf3
  have hall2 : ∀ g ∈ [['a']], g ≠ stdinToken →
      ∃ h, (if g = ['a'] then (Except.ok 1 : Except Nat Nat) else Except.error 9) =
        Except.ok h := by
    intro g hg hne
    rcases List.mem_cons.mp hg with rfl | hg2
    · exact ⟨1, rfl⟩
    · cases hg2
  refine ⟨hc9.1, ?_, hc9.2.2 [['a']] ['b'] [['a']] 9 (by decide) hall2 rfl⟩
  obtain ⟨hs, heq, hrel⟩ := hc9.2.1 [['a'], ['-']] (by decide) hall1
  cases hrel with
  | cons hhead htail =>
    cases htail with
    | cons hsnd htail2 =>
      cases htail2
      rcases hhead with ⟨hfalse, -⟩ | hok
      · exact absurd hfalse (by decide)
      · rw [if_pos rfl] at hok
        cases hok
        rcases hsnd with ⟨-, rfl⟩ | hbad
        · exact heq
        · rw [if_neg (show ¬(['-'] = ['a']) from by decide)] at hbad
          cases hbad

end Colx
